import Mathlib

/-!
Shallow embedding of the silero speech-to-text repository's audio
normalization pipeline and CTC-style label decoder, with theorems about
the decoder fixtures, channel downmixing, sample normalization, the
identity-resample path and the arg-max token reduction.

Rust `f32` arithmetic is modelled by exact rational arithmetic (`ℚ`);
Rust `String` is modelled by `String` for vocabulary labels and by
`List Char` for the character-level operations `replace` and `trim`;
fallible operations (`anyhow::Result`) and panics (out-of-bounds
indexing) are both modelled by `Option`.
-/

namespace Silero

/-- Model of `enum Sample` from `src/audio/mod.rs`: a tagged numeric union of
signed 16-bit, signed 32-bit and 32-bit float samples.  Integer payloads are
`Int` with range constraints expressed by `Sample.valid`; float payloads are
exact rationals. -/
inductive Sample where
  | S16 (s : Int)
  | S32 (s : Int)
  | F32 (x : ℚ)
deriving DecidableEq

/-- Range constraint of the Rust integer sample types `i16` and `i32`. -/
def Sample.valid : Sample → Prop
  | .S16 s => -32768 ≤ s ∧ s ≤ 32767
  | .S32 s => -2147483648 ≤ s ∧ s ≤ 2147483647
  | .F32 _ => True

instance (s : Sample) : Decidable s.valid := by
  cases s <;> dsimp [Sample.valid] <;> infer_instance

/-- Model of `Sample::to_f32`: `S16` divides by `i16::MAX as f32 = 32767`
(exactly representable), `S32` divides by `i32::MAX as f32`, which rounds to
`2^31 = 2147483648`, and `F32` passes through.  The divisions and the casts
of the integer samples are modelled exactly over `ℚ`; the f32 rounding of an
`i32` sample's cast moves it by less than one part in `2^24` of full scale
and cannot move a quotient out of `[-1, 1]`. -/
def Sample.to_f32 : Sample → ℚ
  | .S16 s => (s : ℚ) / 32767
  | .S32 s => (s : ℚ) / 2147483648
  | .F32 x => x

/-- Model of the inner loop of `average_channels`: after the leading sample of
a frame has been read, pull `n` further samples from the stream, accumulating
their running sum; `none` models the `context("invalid number of samples")`
error raised when the stream ends mid-frame. -/
def takeFrame : Nat → ℚ → List Sample → Option (ℚ × List Sample)
  | 0, acc, rest => some (acc, rest)
  | _ + 1, _, [] => none
  | n + 1, acc, s :: rest => takeFrame n (acc + s.to_f32) rest

theorem takeFrame_length : ∀ (n : Nat) (acc : ℚ) (l : List Sample)
    (p : ℚ × List Sample), takeFrame n acc l = some p → p.2.length ≤ l.length
  | 0, _, l, p, h => by
    simp only [takeFrame, Option.some.injEq] at h
    subst h; exact Nat.le_refl _
  | _ + 1, _, [], _, h => by simp [takeFrame] at h
  | n + 1, _, _ :: rest, p, h => by
    simp only [takeFrame] at h
    exact Nat.le_trans (takeFrame_length n _ rest p h) (Nat.le_succ _)

/-- Fueled loop body of `average_channels`: while the stream has a next
sample, read `channels` consecutive samples as one interleaved frame, convert
each to float, and push their sum divided by the channel count; a stream
ending mid-frame yields `none` (the `ChannelFrameError`).  The fuel bounds
the number of emitted frames; it is only there to make the recursion
structural, and `fuel = length of the stream` always suffices because every
frame consumes at least one sample. -/
def averageGo : Nat → Nat → List Sample → Option (List ℚ)
  | _, _, [] => some []
  | 0, _, _ :: _ => none
  | fuel + 1, channels, s :: rest =>
    match takeFrame (channels - 1) s.to_f32 rest with
    | none => none
    | some (sum, rest') =>
      match averageGo fuel channels rest' with
      | none => none
      | some t => some (sum / (channels : ℚ) :: t)

/-- Model of `average_channels` from `src/audio/mod.rs`. -/
def average_channels (channels : Nat) (stream : List Sample) : Option (List ℚ) :=
  averageGo stream.length channels stream

/-- Fueled downmix as the spec describes it (§4.4): consume each group of `N`
consecutive interleaved samples, convert each to float, and emit their
arithmetic mean.  Stated from the spec's words for comparison with the
source-derived `average_channels`; `fuel = length of the stream` always
suffices when `N ≥ 1`. -/
def specDownmixGo : Nat → Nat → List Sample → List ℚ
  | _, _, [] => []
  | 0, _, _ :: _ => []
  | fuel + 1, n, s :: rest =>
    (((s :: rest).take n).map Sample.to_f32).sum / (n : ℚ) ::
      specDownmixGo fuel n ((s :: rest).drop n)

/-- Downmix as the spec describes it (§4.4): the mean of each group of `N`
consecutive samples. -/
def specDownmix (n : Nat) (stream : List Sample) : List ℚ :=
  specDownmixGo stream.length n stream

/-- Model of `read_audio_stream` from `src/audio/mod.rs`: downmix the stream,
then return the buffer as-is when the source rate equals the target rate and
hand it to the resampler otherwise.  The sinc resampler itself lives in the
external `rubato` crate, so it is a parameter `resampleFn`. -/
def read_audio_stream (resampleFn : Nat → Nat → List ℚ → Option (List ℚ))
    (sample_rate target_sample_rate channels : Nat) (stream : List Sample) :
    Option (List ℚ) := do
  let samples ← average_channels channels stream
  if sample_rate = target_sample_rate then
    pure samples
  else
    resampleFn sample_rate target_sample_rate samples

/-- Model of `Iterator::position`: index of the first element satisfying the
predicate. -/
def position (p : String → Bool) : List String → Option Nat
  | [] => none
  | x :: rest => if p x then some 0 else (position p rest).map (· + 1)

/-- Model of `struct Decoder` from `src/decoder.rs`. -/
structure Decoder where
  labels : List String
  blank_idx : Nat
  two_idx : Nat
deriving DecidableEq

/-- Model of `Decoder::new`: locate the first `"_"` label and the first `"2"`
label; `none` models the `context("invalid labels")` error when either is
absent. -/
def Decoder.new (labels : List String) : Option Decoder := do
  let blank_idx ← position (· = "_") labels
  let two_idx ← position (· = "2") labels
  pure ⟨labels, blank_idx, two_idx⟩

/-- Model of one iteration of the piece-building loop in `Decoder::decode`.
The accumulator holds the pieces in reverse push order, so the head is the
most recently pushed piece.  A sentinel token on a nonempty accumulator
pushes `"$"` and then re-pushes `pieces[pieces.len() - 2]`, which at that
point is the piece that was last before the `"$"`.  A blank token pushes
nothing, and any other token pushes `labels[i]`, whose out-of-bounds panic is
modelled by `none`. -/
def pushPiece (d : Decoder) (rev : List String) (i : Nat) : Option (List String) :=
  if i = d.two_idx then
    match rev with
    | [] => some [" "]
    | last :: rest => some (last :: "$" :: last :: rest)
  else if i = d.blank_idx then
    some rev
  else
    match d.labels.get? i with
    | some lab => some (lab :: rev)
    | none => none

/-- First phase of `Decoder::decode`: fold the token path through
`pushPiece`, yielding the pieces in reverse push order. -/
def buildPiecesRev (d : Decoder) (argm : List Nat) : Option (List String) :=
  argm.foldlM (pushPiece d) []

/-- Pieces of `Decoder::decode` in push order. -/
def buildPieces (d : Decoder) (argm : List Nat) : Option (List String) :=
  (buildPiecesRev d argm).map List.reverse

/-- Tail of the second loop of `Decoder::decode`: given the piece most
recently kept (the loop's `last`), skip every piece equal to it and keep the
first differing piece. -/
def collapseAfter : String → List String → List String
  | _, [] => []
  | p, q :: rest => if q = p then collapseAfter p rest else q :: collapseAfter q rest

/-- Model of the second loop of `Decoder::decode`: skip each piece equal to
the previously kept piece, so every run of consecutive equal pieces keeps
only its first element. -/
def collapseUnits : List String → List String
  | [] => []
  | p :: rest => p :: collapseAfter p rest

/-- Model of the whitespace predicate of Rust `str::trim`
(`char::is_whitespace`): the Unicode White_Space property, i.e. the code
points 0009-000D, 0020, 0085, 00A0, 1680, 2000-200A, 2028, 2029, 202F, 205F
and 3000. -/
def isWs (c : Char) : Bool :=
  c.toNat = 0x09 || c.toNat = 0x0A || c.toNat = 0x0B || c.toNat = 0x0C ||
  c.toNat = 0x0D || c.toNat = 0x20 || c.toNat = 0x85 || c.toNat = 0xA0 ||
  c.toNat = 0x1680 || (0x2000 ≤ c.toNat && c.toNat ≤ 0x200A) ||
  c.toNat = 0x2028 || c.toNat = 0x2029 || c.toNat = 0x202F ||
  c.toNat = 0x205F || c.toNat = 0x3000

/-- Model of `str::trim` on a character list: drop whitespace from the front,
then from the back. -/
def trimChars (l : List Char) : List Char :=
  (((l.dropWhile isWs).reverse.dropWhile isWs)).reverse

/-- Model of `Decoder::decode` from `src/decoder.rs`: build the piece
sequence, collapse consecutive duplicate pieces, concatenate, remove every
`'$'` character (Rust `replace('$', "")`), and trim surrounding whitespace.
The result is the final text as a character list; `none` models the panic of
an out-of-bounds vocabulary lookup. -/
def Decoder.decode (d : Decoder) (argm : List Nat) : Option (List Char) :=
  (buildPieces d argm).map fun pieces =>
    trimChars ((((collapseUnits pieces).map String.data).flatten).filter (fun c => c ≠ '$'))

/-- Decoder over the spec's fixture vocabulary `["_","a","2","b"]`:
blank index 0, sentinel index 2. -/
def testDecoder : Decoder := ⟨["_", "a", "2", "b"], 0, 2⟩

/-- Decoder whose vocabulary has a genuine label containing the joiner
character `'$'`. -/
def dollarDecoder : Decoder := ⟨["_", "a$b", "2"], 0, 2⟩

/-- Model of the Rust closure `|(ia, a), (ib, b)| if a >= b { (ia, a) } else
{ (ib, b) }` used by the arg-max reduction in `Silero::infer`. -/
def amStep (p q : Nat × ℚ) : Nat × ℚ :=
  if p.2 ≥ q.2 then p else q

/-- Model of `probs.iter().enumerate().reduce(amStep)` from `Silero::infer`:
`Iterator::reduce` takes the first element as the accumulator and folds the
rest. -/
def argmaxReduce (l : List ℚ) : Option (Nat × ℚ) :=
  match l.enum with
  | [] => none
  | x :: xs => some (xs.foldl amStep x)

theorem position_isSome_iff (a : String) :
    ∀ l : List String, (position (· = a) l).isSome ↔ a ∈ l := by
  intro l
  induction l with
  | nil => simp [position]
  | cons x rest ih =>
    by_cases hx : x = a
    · subst hx; simp [position]
    · simp [position, hx, Option.isSome_map, ih, Ne.symm hx]

theorem Decoder.new_isSome_iff (labels : List String) :
    (Decoder.new labels).isSome ↔ ("_" ∈ labels ∧ "2" ∈ labels) := by
  rw [← position_isSome_iff "_" labels, ← position_isSome_iff "2" labels]
  cases hb : position (· = "_") labels <;>
    cases ht : position (· = "2") labels <;>
      simp [Decoder.new, hb, ht]

end Silero

/-- C3 counterexample: the claim requires construction to fail unless the
vocabulary contains exactly one `"_"`, but `Decoder::new` accepts a
vocabulary in which `"_"` occurs twice. -/
theorem decoder_new_duplicate_blank_cex :
    (["_", "_", "2"].count "_" = 2) ∧ (Silero.Decoder.new ["_", "_", "2"]).isSome := by
  constructor <;> decide

/-- C3 (amended): `Decoder::new` succeeds exactly when the vocabulary
contains at least one `"_"` and at least one `"2"` (the first occurrence of
each becomes the blank and sentinel index); it fails when either is absent.
Uniqueness is not required. -/
theorem decoder_new_isSome_iff (labels : List String) :
    (Silero.Decoder.new labels).isSome ↔ ("_" ∈ labels ∧ "2" ∈ labels) :=
  Silero.Decoder.new_isSome_iff labels

/-- C1 counterexample: over the vocabulary `["_","a","2","b"]`, the blank at
index 0 produces no unit, so `decode [1,0,1,3]` collapses the two `"a"`
units that become adjacent after blank removal and returns `"ab"`, not the
claimed `"aab"`. -/
theorem decode_blank_adjacency_cex :
    Silero.testDecoder.decode [1, 0, 1, 3] = some "ab".data ∧
      "ab".data ≠ "aab".data := by
  constructor <;> decide

/-- C1 (amended): for the vocabulary `["_","a","2","b"]`,
`decode [1,1,0,3] = decode [1,0,3]`, `decode [1,1,3] = "ab"`, and
`decode [1,0,1,3] = "ab"`: the collapse runs over the produced unit
sequence, in which blanks have already been removed, so a blank between two
occurrences of index 1 does not prevent the adjacent-duplicate collapse. -/
theorem decode_collapse_fixtures :
    Silero.Decoder.new ["_", "a", "2", "b"] = some Silero.testDecoder ∧
      Silero.testDecoder.decode [1, 1, 0, 3] = Silero.testDecoder.decode [1, 0, 3] ∧
      Silero.testDecoder.decode [1, 1, 3] = some "ab".data ∧
      Silero.testDecoder.decode [1, 0, 1, 3] = some "ab".data := by
  refine ⟨by decide, by decide, by decide, by decide⟩

/-- C2 counterexample: a sentinel at the start does push a space unit, but
the final `trim` removes it, so `decode [2, 1]` returns `"a"`, which does
not begin with a space character. -/
theorem decode_sentinel_start_cex :
    Silero.testDecoder.decode [2, 1] = some "a".data ∧
      ("a".data).head? ≠ some ' ' := by
  constructor <;> decide

/-- C2 (amended): for the vocabulary `["_","a","2","b"]`, a sentinel before
any produced unit emits a literal space as the next unit — the unit sequence
of `decode [2, 1]` is `[" ", "a"]` — but the final trim strips the leading
space, so the returned text is `"a"`. -/
theorem decode_sentinel_start_units :
    Silero.buildPieces Silero.testDecoder [2, 1] = some [" ", "a"] ∧
      Silero.testDecoder.decode [2, 1] = some "a".data := by
  constructor <;> decide

/-- C6: when the source sample rate equals the target sample rate, the
pipeline returns the downmixed buffer unchanged, and the result does not
depend on the resampler at all (the resampler is invoked only when the two
rates differ). -/
theorem read_audio_stream_identity
    (resampleA resampleB : Nat → Nat → List ℚ → Option (List ℚ))
    (rate channels : Nat) (stream : List Silero.Sample) :
    Silero.read_audio_stream resampleA rate rate channels stream =
        Silero.average_channels channels stream ∧
      Silero.read_audio_stream resampleA rate rate channels stream =
        Silero.read_audio_stream resampleB rate rate channels stream := by
  cases h : Silero.average_channels channels stream <;>
    simp [Silero.read_audio_stream, h]

namespace Silero

theorem takeFrame_some : ∀ (n : Nat) (rest : List Sample) (acc : ℚ),
    n ≤ rest.length →
    takeFrame n acc rest =
      some (acc + ((rest.take n).map Sample.to_f32).sum, rest.drop n)
  | 0, rest, acc, _ => by simp [takeFrame]
  | n + 1, [], acc, h => by simp at h
  | n + 1, s :: rest, acc, h => by
    rw [List.length_cons] at h
    simp only [takeFrame, List.take_succ_cons, List.drop_succ_cons, List.map_cons,
      List.sum_cons]
    rw [takeFrame_some n rest (acc + s.to_f32) (Nat.le_of_succ_le_succ h)]
    ring_nf

theorem takeFrame_none : ∀ (n : Nat) (rest : List Sample) (acc : ℚ),
    rest.length < n → takeFrame n acc rest = none
  | 0, rest, _, h => by simp at h
  | n + 1, [], _, _ => by simp [takeFrame]
  | n + 1, s :: rest, acc, h => by
    rw [List.length_cons] at h
    simp only [takeFrame]
    exact takeFrame_none n rest _ (Nat.lt_of_succ_lt_succ h)

/-- Characterization of the downmix loop against the spec's chunked
description: with enough fuel and `N ≥ 1`, the loop succeeds exactly on
streams whose length is divisible by `N`, and then returns the per-chunk
arithmetic means. -/
theorem averageGo_eq (N : Nat) (hN : 1 ≤ N) : ∀ (fuel : Nat) (l : List Sample),
    l.length ≤ fuel →
    averageGo fuel N l =
      if N ∣ l.length then some (specDownmixGo fuel N l) else none
  | fuel, [], _ => by simp [averageGo, specDownmixGo]
  | 0, s :: rest, h => by simp at h
  | fuel + 1, s :: rest, h => by
    obtain ⟨m, rfl⟩ : ∃ m, N = m + 1 := ⟨N - 1, (Nat.succ_pred_eq_of_pos hN).symm⟩
    rw [List.length_cons] at h
    by_cases hm : m ≤ rest.length
    · have hlen : (rest.drop m).length ≤ fuel := by
        rw [List.length_drop]
        omega
      have hsplit : rest.length + 1 = (m + 1) + (rest.drop m).length := by
        rw [List.length_drop]
        omega
      have hiff : ((m + 1) ∣ m + 1 + (rest.drop m).length) ↔ ((m + 1) ∣ (rest.drop m).length) :=
        Nat.dvd_add_right (Nat.dvd_refl (m + 1))
      simp only [averageGo, Nat.add_sub_cancel, takeFrame_some m rest s.to_f32 hm,
        averageGo_eq (m + 1) hN fuel (rest.drop m) hlen]
      rw [List.length_cons, hsplit]
      by_cases hdvd : (m + 1) ∣ (rest.drop m).length
      · rw [if_pos hdvd, if_pos (hiff.mpr hdvd)]
        simp [specDownmixGo, List.take_succ_cons, List.drop_succ_cons]
      · rw [if_neg hdvd, if_neg (fun hc => hdvd (hiff.mp hc))]
    · have hnd : ¬ (m + 1) ∣ (s :: rest).length := by
        intro hd
        have := Nat.le_of_dvd (by simp) hd
        rw [List.length_cons] at this
        omega
      simp only [averageGo, Nat.add_sub_cancel,
        takeFrame_none m rest s.to_f32 (by omega)]
      rw [if_neg hnd]

theorem specDownmixGo_one : ∀ (fuel : Nat) (l : List Sample), l.length ≤ fuel →
    specDownmixGo fuel 1 l = l.map Sample.to_f32
  | _, [], _ => by simp [specDownmixGo]
  | 0, s :: rest, h => by simp at h
  | fuel + 1, s :: rest, h => by
    rw [List.length_cons] at h
    simp only [specDownmixGo, List.take_succ_cons, List.take_zero, List.drop_succ_cons,
      List.drop_zero, List.map_cons, List.map_nil, List.sum_cons, List.sum_nil]
    rw [specDownmixGo_one fuel rest (Nat.le_of_succ_le_succ h)]
    norm_num

end Silero

/-- C4: for every stream whose length is divisible by the declared channel
count `N ≥ 1`, the downmixer emits the arithmetic mean of each group of `N`
consecutive float-converted samples (`specDownmix` states the spec's chunked
description); concretely, a 2-channel stream `[a1,b1,a2,b2]` downmixes to
`[(a1+b1)/2, (a2+b2)/2]`, and a 1-channel stream downmixes to its
float-converted samples. -/
theorem average_channels_spec (N : Nat) (l : List Silero.Sample)
    (hN : 1 ≤ N) (hdvd : N ∣ l.length) :
    Silero.average_channels N l = some (Silero.specDownmix N l) ∧
      (∀ s1 s2 s3 s4 : Silero.Sample,
        Silero.average_channels 2 [s1, s2, s3, s4] =
          some [(s1.to_f32 + s2.to_f32) / 2, (s3.to_f32 + s4.to_f32) / 2]) ∧
      (∀ l' : List Silero.Sample,
        Silero.average_channels 1 l' = some (l'.map Silero.Sample.to_f32)) := by
  refine ⟨?_, ?_, ?_⟩
  · rw [Silero.average_channels, Silero.specDownmix,
      Silero.averageGo_eq N hN l.length l (Nat.le_refl _), if_pos hdvd]
  · intro s1 s2 s3 s4
    simp [Silero.average_channels, Silero.averageGo, Silero.takeFrame]
  · intro l'
    rw [Silero.average_channels,
      Silero.averageGo_eq 1 (Nat.le_refl 1) l'.length l' (Nat.le_refl _),
      if_pos (one_dvd _), Silero.specDownmixGo_one l'.length l' (Nat.le_refl _)]

/-- C4 witness: the general downmix theorem applied to a concrete 2-channel
stream of length 4. -/
theorem average_channels_spec_witness :
    Silero.average_channels 2
        [Silero.Sample.S16 1, Silero.Sample.S16 3, Silero.Sample.S16 5, Silero.Sample.S16 7] =
      some (Silero.specDownmix 2
        [Silero.Sample.S16 1, Silero.Sample.S16 3, Silero.Sample.S16 5, Silero.Sample.S16 7]) :=
  (average_channels_spec 2 _ (by decide) (by decide)).1

/-- C5: a stream whose length is not divisible by the declared channel count
`N ≥ 1` ends mid multichannel frame, and the downmixer fails (the
`ChannelFrameError`) instead of emitting a value for the partial frame. -/
theorem average_channels_partial_frame (N : Nat) (l : List Silero.Sample)
    (hN : 1 ≤ N) (hdvd : ¬ N ∣ l.length) :
    Silero.average_channels N l = none := by
  rw [Silero.average_channels,
    Silero.averageGo_eq N hN l.length l (Nat.le_refl _), if_neg hdvd]

/-- C5 witness: a 2-channel stream with three samples fails. -/
theorem average_channels_partial_frame_witness :
    Silero.average_channels 2
        [Silero.Sample.S16 1, Silero.Sample.S16 3, Silero.Sample.S16 5] = none :=
  average_channels_partial_frame 2 _ (by decide) (by decide)

/-- C7 counterexample: the minimum int16 sample is valid, yet its float
conversion `-32768 / 32767` lies strictly below `-1`, outside the claimed
range `[-1, 1]`. -/
theorem to_f32_min_int16_cex :
    Silero.Sample.valid (Silero.Sample.S16 (-32768)) ∧
      Silero.Sample.to_f32 (Silero.Sample.S16 (-32768)) < -1 := by
  refine ⟨by decide, ?_⟩
  show ((-32768 : Int) : ℚ) / 32767 < -1
  norm_num

/-- C7 (amended): the conversion divides int16 samples by 32767, divides
int32 samples by `i32::MAX as f32`, which rounds to `2^31 = 2147483648`, and
passes float32 samples through unchanged.  Every valid int32 sample converts
into `[-1, 1]` (the minimum maps to exactly `-1`); int16 samples convert
into `[-1, 1]` except the minimum value `-32768`, which maps to
`-32768/32767`, slightly below `-1`. -/
theorem to_f32_div_and_range (s : Silero.Sample) (h : s.valid) :
    (∀ v : Int, s = Silero.Sample.S16 v →
        s.to_f32 = (v : ℚ) / 32767 ∧
        (-32768 : ℚ) / 32767 ≤ s.to_f32 ∧ s.to_f32 ≤ 1 ∧
        (v ≠ -32768 → -1 ≤ s.to_f32)) ∧
    (∀ v : Int, s = Silero.Sample.S32 v →
        s.to_f32 = (v : ℚ) / 2147483648 ∧
        -1 ≤ s.to_f32 ∧ s.to_f32 ≤ 1) ∧
    (∀ x : ℚ, s = Silero.Sample.F32 x → s.to_f32 = x) := by
  refine ⟨?_, ?_, ?_⟩ <;> rintro v rfl
  · obtain ⟨h1, h2⟩ : -32768 ≤ v ∧ v ≤ 32767 := h
    refine ⟨rfl, ?_, ?_, ?_⟩
    · show (-32768 : ℚ) / 32767 ≤ (v : ℚ) / 32767
      exact (div_le_div_iff_of_pos_right (by norm_num)).mpr (by exact_mod_cast h1)
    · show (v : ℚ) / 32767 ≤ 1
      exact (div_le_one (by norm_num)).mpr (by exact_mod_cast h2)
    · intro hne
      have h1' : (-32767 : Int) ≤ v := by omega
      show (-1 : ℚ) ≤ (v : ℚ) / 32767
      have hrw : (-1 : ℚ) = (-32767 : ℚ) / 32767 := by norm_num
      rw [hrw]
      exact (div_le_div_iff_of_pos_right (by norm_num)).mpr (by exact_mod_cast h1')
  · obtain ⟨h1, h2⟩ : -2147483648 ≤ v ∧ v ≤ 2147483647 := h
    refine ⟨rfl, ?_, ?_⟩
    · show (-1 : ℚ) ≤ (v : ℚ) / 2147483648
      have hrw : (-1 : ℚ) = (-2147483648 : ℚ) / 2147483648 := by norm_num
      rw [hrw]
      exact (div_le_div_iff_of_pos_right (by norm_num)).mpr (by exact_mod_cast h1)
    · show (v : ℚ) / 2147483648 ≤ 1
      have h2' : v ≤ (2147483648 : Int) := by omega
      exact (div_le_one (by norm_num)).mpr (by exact_mod_cast h2')
  · rfl

/-- C7 witness: the amended range theorem applied to the valid int16 sample
100. -/
theorem to_f32_div_and_range_witness :
    Silero.Sample.to_f32 (Silero.Sample.S16 100) = ((100 : Int) : ℚ) / 32767 ∧
      (-32768 : ℚ) / 32767 ≤ Silero.Sample.to_f32 (Silero.Sample.S16 100) ∧
      Silero.Sample.to_f32 (Silero.Sample.S16 100) ≤ 1 ∧
      ((100 : Int) ≠ -32768 → -1 ≤ Silero.Sample.to_f32 (Silero.Sample.S16 100)) :=
  (to_f32_div_and_range (Silero.Sample.S16 100) (by decide)).1 100 rfl

namespace Silero

theorem get?_isSome_iff (l : List String) (n : Nat) :
    (l.get? n).isSome ↔ n < l.length := by
  by_cases hn : n < l.length
  · rw [List.get?_eq_get hn]
    simp [hn]
  · rw [List.get?_eq_none.mpr (Nat.le_of_not_lt hn)]
    simp [hn]

theorem pushPiece_isSome (d : Decoder) (rev : List String) (i : Nat) :
    (pushPiece d rev i).isSome ↔
      (i = d.two_idx ∨ i = d.blank_idx ∨ i < d.labels.length) := by
  by_cases h2 : i = d.two_idx
  · cases rev <;> simp [pushPiece, h2]
  · by_cases hb : i = d.blank_idx
    · simp only [pushPiece]
      rw [if_neg h2, if_pos hb]
      simp [hb]
    · simp only [pushPiece, if_neg h2, if_neg hb, h2, hb, false_or]
      rw [← get?_isSome_iff]
      cases d.labels.get? i <;> simp

theorem buildPiecesRev_aux_isSome (d : Decoder) : ∀ (argm : List Nat) (rev : List String),
    (argm.foldlM (pushPiece d) rev).isSome ↔
      ∀ i ∈ argm, i = d.two_idx ∨ i = d.blank_idx ∨ i < d.labels.length := by
  intro argm
  induction argm with
  | nil => intro rev; simp
  | cons a rest ih =>
    intro rev
    rw [List.foldlM_cons]
    cases hp : pushPiece d rev a with
    | none =>
      have ha : ¬ (a = d.two_idx ∨ a = d.blank_idx ∨ a < d.labels.length) := by
        rw [← pushPiece_isSome d rev a, hp]
        simp
      simp [hp, ha]
    | some r =>
      have ha : a = d.two_idx ∨ a = d.blank_idx ∨ a < d.labels.length := by
        rw [← pushPiece_isSome d rev a, hp]
        simp
      simp [hp, ih r, ha]

end Silero

/-- C9: `Decoder::decode` indexes the vocabulary directly with each token
value, so it succeeds (returns `Ok`, modelled `some`) exactly when every
token that is neither the sentinel index nor the blank index is strictly
below the vocabulary length; any other token path reaches an out-of-bounds
vocabulary lookup (a panic, modelled `none`), never an error result. -/
theorem decode_isSome_iff (d : Silero.Decoder) (argm : List Nat) :
    (d.decode argm).isSome ↔
      ∀ i ∈ argm, i = d.two_idx ∨ i = d.blank_idx ∨ i < d.labels.length := by
  have hmap : (d.decode argm).isSome = (Silero.buildPiecesRev d argm).isSome := by
    rw [Silero.Decoder.decode, Silero.buildPieces]
    cases Silero.buildPiecesRev d argm <;> rfl
  rw [hmap, Silero.buildPiecesRev]
  exact Silero.buildPiecesRev_aux_isSome d argm []

namespace Silero

theorem head?_dropWhile_ws : ∀ (p : Char → Bool) (l : List Char) (c : Char),
    (l.dropWhile p).head? = some c → p c = false := by
  intro p l
  induction l with
  | nil => intro c h; simp [List.dropWhile] at h
  | cons x rest ih =>
    intro c h
    by_cases hx : p x
    · rw [List.dropWhile_cons_of_pos hx] at h
      exact ih c h
    · rw [List.dropWhile_cons_of_neg hx] at h
      simp only [List.head?_cons, Option.some.injEq] at h
      subst h
      exact Bool.eq_false_iff.mpr hx

theorem mem_trimChars (c : Char) (l : List Char) (h : c ∈ trimChars l) : c ∈ l := by
  unfold trimChars at h
  rw [List.mem_reverse] at h
  have h1 : c ∈ (l.dropWhile isWs).reverse :=
    List.Sublist.mem h (List.dropWhile_sublist _)
  rw [List.mem_reverse] at h1
  exact List.Sublist.mem h1 (List.dropWhile_sublist _)

theorem trimChars_head (l : List Char) (c : Char)
    (h : (trimChars l).head? = some c) : isWs c = false := by
  unfold trimChars at h
  rw [List.head?_reverse] at h
  have hm : ((l.dropWhile isWs).reverse).getLast? = some c := by
    conv_lhs => rw [← List.takeWhile_append_dropWhile (p := isWs) (l := (l.dropWhile isWs).reverse)]
    rw [List.getLast?_append, h]
    rfl
  rw [List.getLast?_reverse] at hm
  exact head?_dropWhile_ws isWs l c hm

theorem trimChars_getLast (l : List Char) (c : Char)
    (h : (trimChars l).getLast? = some c) : isWs c = false := by
  unfold trimChars at h
  rw [List.getLast?_reverse] at h
  exact head?_dropWhile_ws isWs (l.dropWhile isWs).reverse c h

end Silero

/-- C10: every string successfully returned by `Decoder::decode` contains no
`'$'` character — the `replace('$', "")` step strips every `'$'`, including
those coming from genuine vocabulary labels — and carries no leading or
trailing whitespace, because of the final `trim` (whitespace in the sense of
Rust `char::is_whitespace`, the Unicode White_Space property modelled by
`isWs`). -/
theorem decode_no_joiner_trimmed (d : Silero.Decoder) (argm : List Nat) (s : List Char)
    (h : d.decode argm = some s) :
    ('$' ∉ s) ∧ (∀ c, s.head? = some c → Silero.isWs c = false) ∧
      (∀ c, s.getLast? = some c → Silero.isWs c = false) := by
  rw [Silero.Decoder.decode, Option.map_eq_some'] at h
  obtain ⟨pieces, hps, hs⟩ := h
  subst hs
  refine ⟨?_, fun c hc => Silero.trimChars_head _ _ hc,
    fun c hc => Silero.trimChars_getLast _ _ hc⟩
  intro hmem
  have hin := Silero.mem_trimChars _ _ hmem
  rw [List.mem_filter] at hin
  exact absurd hin.2 (by simp)

/-- C10 witness: the clean-output theorem applied to a decoder whose
vocabulary label itself contains `'$'`: decoding token 1 over
`["_", "a$b", "2"]` yields `"ab"`. -/
theorem decode_no_joiner_trimmed_witness :
    ('$' ∉ "ab".data) ∧ (∀ c, ("ab".data).head? = some c → Silero.isWs c = false) ∧
      (∀ c, ("ab".data).getLast? = some c → Silero.isWs c = false) :=
  decode_no_joiner_trimmed Silero.dollarDecoder [1] "ab".data (by decide)

namespace Silero

/-- Invariant of the `reduce` fold in `Silero::infer`: folding `amStep` over
the enumerated tail either keeps the initial accumulator, in which case every
later score is at most its score, or lands on the first later entry whose
score strictly exceeds the accumulator's and every score strictly before it,
and which every later score does not exceed. -/
theorem amFoldl_spec : ∀ (as : List ℚ) (n : Nat) (p : Nat × ℚ),
    (∀ j w, as.get? j = some w → w ≤ ((as.enumFrom n).foldl amStep p).2) ∧
      p.2 ≤ ((as.enumFrom n).foldl amStep p).2 ∧
      (((as.enumFrom n).foldl amStep p) = p ∨
        ∃ k w, as.get? k = some w ∧ ((as.enumFrom n).foldl amStep p) = (n + k, w) ∧
          p.2 < w ∧ ∀ j w', j < k → as.get? j = some w' → w' < w)
  | [], n, p => by
    refine ⟨fun j w h => by simp at h, le_refl _, Or.inl ?_⟩
    simp [List.enumFrom]
  | a :: as, n, p => by
    rw [show (a :: as).enumFrom n = (n, a) :: as.enumFrom (n + 1) from rfl,
      List.foldl_cons]
    by_cases hge : p.2 ≥ a
    · rw [show amStep p (n, a) = p from if_pos hge]
      obtain ⟨hglobal, hacc, hbranch⟩ := amFoldl_spec as (n + 1) p
      refine ⟨?_, hacc, ?_⟩
      · intro j w hj
        match j, hj with
        | 0, hj =>
          simp only [List.get?_cons_zero, Option.some.injEq] at hj
          subst hj
          exact le_trans hge hacc
        | j + 1, hj =>
          rw [List.get?_cons_succ] at hj
          exact hglobal j w hj
      · rcases hbranch with hkeep | ⟨k, w, hget, hr, hlt, hstrict⟩
        · exact Or.inl hkeep
        · refine Or.inr ⟨k + 1, w, by rw [List.get?_cons_succ]; exact hget, ?_, hlt, ?_⟩
          · rw [hr]
            congr 1
            omega
          · intro j w' hj hw
            match j, hw with
            | 0, hw =>
              simp only [List.get?_cons_zero, Option.some.injEq] at hw
              subst hw
              exact lt_of_le_of_lt hge hlt
            | j + 1, hw =>
              rw [List.get?_cons_succ] at hw
              exact hstrict j w' (by omega) hw
    · rw [show amStep p (n, a) = (n, a) from if_neg hge]
      have hpa : p.2 < a := lt_of_not_ge hge
      obtain ⟨hglobal, hacc, hbranch⟩ := amFoldl_spec as (n + 1) (n, a)
      refine ⟨?_, le_of_lt (lt_of_lt_of_le hpa hacc), ?_⟩
      · intro j w hj
        match j, hj with
        | 0, hj =>
          simp only [List.get?_cons_zero, Option.some.injEq] at hj
          subst hj
          exact hacc
        | j + 1, hj =>
          rw [List.get?_cons_succ] at hj
          exact hglobal j w hj
      · rcases hbranch with hkeep | ⟨k, w, hget, hr, hlt, hstrict⟩
        · refine Or.inr ⟨0, a, List.get?_cons_zero, ?_, hpa, fun j w' hj _ => absurd hj (Nat.not_lt_zero j)⟩
          rw [hkeep, Nat.add_zero]
        · refine Or.inr ⟨k + 1, w, by rw [List.get?_cons_succ]; exact hget, ?_,
            lt_trans hpa hlt, ?_⟩
          · rw [hr]
            congr 1
            omega
          · intro j w' hj hw
            match j, hw with
            | 0, hw =>
              simp only [List.get?_cons_zero, Option.some.injEq] at hw
              subst hw
              exact hlt
            | j + 1, hw =>
              rw [List.get?_cons_succ] at hw
              exact hstrict j w' (by omega) hw

end Silero

/-- C8: on a non-empty per-frame score vector, the `reduce`-based arg-max of
`Silero::infer` returns an index/score pair such that the score is attained
at that index, no score exceeds it, and every strictly earlier index holds a
strictly smaller score — so ties are broken in favor of the lowest index. -/
theorem argmaxReduce_first_max (l : List ℚ) (h : l ≠ []) :
    ∃ i v, Silero.argmaxReduce l = some (i, v) ∧ l.get? i = some v ∧
      (∀ j w, l.get? j = some w → w ≤ v) ∧
      (∀ j w, j < i → l.get? j = some w → w < v) := by
  match l with
  | [] => exact absurd rfl h
  | a :: as =>
    have heq : Silero.argmaxReduce (a :: as) =
        some ((as.enumFrom 1).foldl Silero.amStep (0, a)) := rfl
    obtain ⟨hglobal, hacc, hbranch⟩ := Silero.amFoldl_spec as 1 (0, a)
    rcases hbranch with hkeep | ⟨k, w, hget, hr, hlt, hstrict⟩
    · refine ⟨0, a, by rw [heq, hkeep], List.get?_cons_zero, ?_,
        fun j w hj _ => absurd hj (Nat.not_lt_zero j)⟩
      intro j w hj
      match j, hj with
      | 0, hj =>
        simp only [List.get?_cons_zero, Option.some.injEq] at hj
        subst hj
        exact le_refl a
      | j + 1, hj =>
        rw [List.get?_cons_succ] at hj
        have := hglobal j w hj
        rw [hkeep] at this
        exact this
    · refine ⟨k + 1, w, ?_, by rw [List.get?_cons_succ]; exact hget, ?_, ?_⟩
      · rw [heq, hr]
        congr 2
        omega
      · intro j w' hj
        match j, hj with
        | 0, hj =>
          simp only [List.get?_cons_zero, Option.some.injEq] at hj
          subst hj
          exact le_of_lt hlt
        | j + 1, hj =>
          rw [List.get?_cons_succ] at hj
          have := hglobal j w' hj
          rw [hr] at this
          exact this
      · intro j w' hj hw
        match j, hw with
        | 0, hw =>
          simp only [List.get?_cons_zero, Option.some.injEq] at hw
          subst hw
          exact hlt
        | j + 1, hw =>
          rw [List.get?_cons_succ] at hw
          exact hstrict j w' (by omega) hw

/-- C8 witness: the arg-max theorem applied to the concrete score vector
`[1, 3, 3, 2]`, whose maximum 3 first occurs at index 1. -/
theorem argmaxReduce_first_max_witness :
    ([(1 : ℚ), 3, 3, 2] ≠ []) ∧
      (∃ i v, Silero.argmaxReduce [(1 : ℚ), 3, 3, 2] = some (i, v) ∧
        ([(1 : ℚ), 3, 3, 2]).get? i = some v ∧
        (∀ j w, ([(1 : ℚ), 3, 3, 2]).get? j = some w → w ≤ v) ∧
        (∀ j w, j < i → ([(1 : ℚ), 3, 3, 2]).get? j = some w → w < v)) :=
  ⟨by simp, argmaxReduce_first_max [(1 : ℚ), 3, 3, 2] (by simp)⟩
